import Mathlib

/-!
Verification of the repository-to-knowledge pipeline of the ADAM assistant
(sizer, policy decider, chunker, embedder contract, hybrid retriever,
session index registry).  The Python implementations named by the
deliverable documents (src/tools/parsing.py, src/tools/embeddings.py,
src/tools/retrieval.py, src/agents/indexer.py, src/agents/repo_ingestor.py)
are not part of the checked-in tree; every operation below is therefore
modelled from the specification text and from the deliverable documents
that declare the missing modules.
-/

namespace ADAM

/-! ### Chunker: split_code_windows -/

/-- Modelled from the spec: worker loop of split_code_windows
(src/tools/parsing.py is absent; its deliverable description is in
src/unnamed/part_008).  A window starting at line start covers
min (start + w - 1) n lines; when the window reaches the end of the file it
is the last one, otherwise the next window starts w - o lines later so that
consecutive windows share o lines.  fuel bounds the number of iterations;
callers pass enough fuel for the loop to finish on its own. -/
def windowsGo (n w o : Nat) : Nat → Nat → List (Nat × Nat)
  | 0, start => [(start, min (start + w - 1) n)]
  | fuel + 1, start =>
      if n ≤ start + w - 1 then [(start, n)]
      else (start, start + w - 1) :: windowsGo n w o fuel (start + w - o)

/-- Modelled from the spec: split_code_windows over a file of n lines with
window w (default 300) and overlap o (default 50).  Lines are 1-based; the
text carried by each window is determined by its line range, so the model
returns the (start_line, end_line) pairs.  Even a zero-length file yields
one window. -/
def split_code_windows (n w o : Nat) : List (Nat × Nat) :=
  windowsGo n w o n 1

theorem windowsGo_ne_nil (n w o fuel start : Nat) :
    windowsGo n w o fuel start ≠ [] := by
  cases fuel with
  | zero => simp [windowsGo]
  | succ fuel =>
      unfold windowsGo
      split <;> simp

theorem windowsGo_head (n fuel start : Nat) :
    (windowsGo n 300 50 fuel start).head? = some (start, min (start + 299) n) := by
  cases fuel with
  | zero => simp [windowsGo]
  | succ fuel =>
      unfold windowsGo
      split
      · rename_i h
        have : min (start + 299) n = n := by omega
        simp [this]
      · rename_i h
        have : min (start + 299) n = start + 299 := by omega
        simp [this]

theorem windowsGo_cover (n : Nat) :
    ∀ fuel start line, n ≤ start + 250 * fuel + 299 → start ≤ line → line ≤ n →
      ∃ p ∈ windowsGo n 300 50 fuel start, p.1 ≤ line ∧ line ≤ p.2 := by
  intro fuel
  induction fuel with
  | zero =>
      intro start line hfuel hs hn
      refine ⟨(start, min (start + 299) n), by simp [windowsGo], by omega, by omega⟩
  | succ fuel ih =>
      intro start line hfuel hs hn
      unfold windowsGo
      split
      · exact ⟨(start, n), by simp, by omega, by omega⟩
      · rename_i h
        by_cases hline : line ≤ start + 299
        · exact ⟨(start, start + 299), by simp, by omega, by omega⟩
        · obtain ⟨p, hp, hp1, hp2⟩ :=
            ih (start + 250) line (by omega) (by omega) hn
          exact ⟨p, by simp [hp], hp1, hp2⟩

theorem windowsGo_chain (n : Nat) :
    ∀ fuel start,
      List.Chain' (fun p q : Nat × Nat => p.1 < q.1 ∧ p.2 < q.2 ∧ p.2 + 1 = q.1 + 50)
        (windowsGo n 300 50 fuel start) := by
  intro fuel
  induction fuel with
  | zero => intro start; simp [windowsGo]
  | succ fuel ih =>
      intro start
      unfold windowsGo
      split
      · simp
      · rename_i h
        refine List.chain'_cons'.mpr ⟨?_, ih (start + 250)⟩
        intro q hq
        rw [windowsGo_head] at hq
        cases hq
        refine ⟨by omega, by omega, by omega⟩

/-- C1: every line of the file lies in some emitted window, adjacent windows
share exactly the configured 50 lines (the later window starts 50 lines
before the earlier one ends, and extends strictly further), and every file
— including an empty one — yields at least one window. -/
theorem split_code_windows_spec (n : Nat) :
    split_code_windows n 300 50 ≠ [] ∧
    (∀ line, 1 ≤ line → line ≤ n →
      ∃ p ∈ split_code_windows n 300 50, p.1 ≤ line ∧ line ≤ p.2) ∧
    List.Chain' (fun p q : Nat × Nat => p.1 < q.1 ∧ p.2 < q.2 ∧ p.2 + 1 = q.1 + 50)
      (split_code_windows n 300 50) := by
  refine ⟨windowsGo_ne_nil n 300 50 n 1, ?_, windowsGo_chain n n 1⟩
  intro line h1 h2
  exact windowsGo_cover n n 1 line (by omega) h1 h2

/-- Witness for C1 at a concrete two-window file of 301 lines. -/
theorem split_code_windows_spec_witness :
    (1 : Nat) ≤ 301 ∧ ∃ p ∈ split_code_windows 301 300 50, p.1 ≤ 301 ∧ 301 ≤ p.2 :=
  ⟨by decide, (split_code_windows_spec 301).2.1 301 (by decide) (by decide)⟩

/-! ### Reciprocal rank fusion and HybridRetriever.search -/

/-- Modelled from the spec: the 1-based rank of a chunk in a ranked
candidate list (src/tools/retrieval.py is absent; its deliverable
description is in src/unnamed/part_008). -/
def rrfRank [DecidableEq α] (l : List α) (c : α) : Nat :=
  l.indexOf c + 1

/-- Modelled from the spec: the contribution of one candidate list to the
fused score of a chunk, 1 / (60 + rank) if the chunk appears in the list and
0 otherwise (k_rrf = 60). -/
def rrfContribution [DecidableEq α] (l : List α) (c : α) : ℚ :=
  if c ∈ l then 1 / (60 + (rrfRank l c : ℚ)) else 0

/-- Modelled from the spec: reciprocal-rank-fusion score of a chunk over a
collection of candidate lists. -/
def rrfScore [DecidableEq α] (lists : List (List α)) (c : α) : ℚ :=
  (lists.map (fun l => rrfContribution l c)).sum

theorem rrfContribution_head [DecidableEq α] (l : List α) (c : α)
    (h : l.head? = some c) : rrfContribution l c = 1 / 61 := by
  cases l with
  | nil => simp at h
  | cons x t =>
      simp only [List.head?_cons, Option.some.injEq] at h
      subst h
      simp [rrfContribution, rrfRank, List.indexOf_cons_self]
      norm_num

theorem rrfContribution_nonneg [DecidableEq α] (l : List α) (c : α) :
    0 ≤ rrfContribution l c := by
  unfold rrfContribution
  split
  · positivity
  · exact le_refl 0

theorem rrfContribution_not_head [DecidableEq α] (l : List α) (d : α)
    (h : l.head? ≠ some d) : rrfContribution l d ≤ 1 / 62 := by
  cases l with
  | nil => simp [rrfContribution]
  | cons x t =>
      by_cases hm : d ∈ x :: t
      · have hx : x ≠ d := by
          intro he; exact h (by simp [he])
        have hidx : 1 ≤ (x :: t).indexOf d := by
          have hne : (x :: t).indexOf d = t.indexOf d + 1 := List.indexOf_cons_ne t hx
          omega
        have hrank : (2 : ℚ) ≤ (rrfRank (x :: t) d : ℚ) := by
          have : 2 ≤ rrfRank (x :: t) d := by
            unfold rrfRank; omega
          exact_mod_cast this
        have hpos : (0 : ℚ) < 62 := by norm_num
        have hle : (62 : ℚ) ≤ 60 + (rrfRank (x :: t) d : ℚ) := by linarith
        calc rrfContribution (x :: t) d
            = 1 / (60 + (rrfRank (x :: t) d : ℚ)) := by simp [rrfContribution, hm]
          _ ≤ 1 / 62 := by
              apply one_div_le_one_div_of_le hpos hle
      · simp [rrfContribution, hm]

/-- C2: the fused score of a chunk is the sum, over only the candidate
lists in which the chunk appears, of 1 / (60 + rank); consequently a chunk
ranked first in both candidate lists has a fused score strictly greater
than that of any chunk ranked first in only one of its lists. -/
theorem rrf_fusion_spec (α : Type) [DecidableEq α] :
    (∀ (lists : List (List α)) (c : α),
      rrfScore lists c =
        ((lists.filter (fun l => decide (c ∈ l))).map
          (fun l => 1 / (60 + (rrfRank l c : ℚ)))).sum) ∧
    (∀ (l1 l2 l1' l2' : List α) (c d : α),
      l1.head? = some c → l2.head? = some c →
      l1'.head? = some d → l2'.head? ≠ some d →
      rrfScore [l1', l2'] d < rrfScore [l1, l2] c) := by
  constructor
  · intro lists c
    induction lists with
    | nil => simp [rrfScore]
    | cons l ls ih =>
        have hcons : rrfScore (l :: ls) c = rrfContribution l c + rrfScore ls c := by
          simp [rrfScore]
        rw [hcons, ih, List.filter_cons]
        by_cases h : c ∈ l
        · simp [h, rrfContribution]
        · simp [h, rrfContribution]
  · intro l1 l2 l1' l2' c d h1 h2 h3 h4
    have hc : rrfScore [l1, l2] c = 1 / 61 + 1 / 61 := by
      simp [rrfScore, rrfContribution_head l1 c h1, rrfContribution_head l2 c h2]
    have hd1 : rrfContribution l1' d = 1 / 61 := rrfContribution_head l1' d h3
    have hd2 : rrfContribution l2' d ≤ 1 / 62 := rrfContribution_not_head l2' d h4
    have hd : rrfScore [l1', l2'] d ≤ 1 / 61 + 1 / 62 := by
      simp [rrfScore, hd1]
      linarith
    rw [hc]
    calc rrfScore [l1', l2'] d ≤ 1 / 61 + 1 / 62 := hd
      _ < 1 / 61 + 1 / 61 := by norm_num

/-- Witness for C2: chunk 0 is first in both lists of one query, chunk 3 is
first in only one list of another, and the fused scores compare strictly. -/
theorem rrf_fusion_spec_witness :
    rrfScore [[3], [0]] (3 : ℕ) < rrfScore [[0, 1], [0, 2]] 0 :=
  (rrf_fusion_spec ℕ).2 [0, 1] [0, 2] [3] [0] 0 3 rfl rfl rfl (by decide)

/-- Modelled from the spec: the candidate lists available to rank fusion —
the lexical (BM25) list when the lexical index is enabled and the dense
(cosine) list when vectors plus a query embedding exist.  A missing list is
simply absent. -/
def candidateLists (bm25 dense : Option (List α)) : List (List α) :=
  bm25.toList ++ dense.toList

/-- Modelled from the spec: stable ranked insertion used for the final
re-sort — higher fused score first, ties broken by lexicographic chunk id. -/
def insertRanked [LinearOrder α] (p : α × ℚ) : List (α × ℚ) → List (α × ℚ)
  | [] => [p]
  | q :: t =>
      if q.2 < p.2 ∨ (p.2 = q.2 ∧ p.1 ≤ q.1) then p :: q :: t
      else q :: insertRanked p t

/-- Modelled from the spec: sort scored chunks by descending fused score
with deterministic lexicographic tie-break. -/
def sortRanked [LinearOrder α] : List (α × ℚ) → List (α × ℚ)
  | [] => []
  | p :: t => insertRanked p (sortRanked t)

/-- Modelled from the spec: HybridRetriever.search reduced to its ranking
core — take whichever candidate lists exist, fuse by reciprocal rank
fusion over the chunks appearing in at least one list, sort, and return the
top k.  The Except result type models the possibility of raising; the
function never does. -/
def hybridSearch [LinearOrder α] (bm25 dense : Option (List α)) (k : Nat) :
    Except String (List (α × ℚ)) :=
  let lists := candidateLists bm25 dense
  let cands := lists.flatten.dedup
  .ok ((sortRanked (cands.map (fun c => (c, rrfScore lists c)))).take k)

/-- Extract the payload of a search call, the empty list on a raised error. -/
def resultList : Except String (List (α × ℚ)) → List (α × ℚ)
  | .ok r => r
  | .error _ => []

theorem mem_insertRanked [LinearOrder α] (p q : α × ℚ) (l : List (α × ℚ))
    (h : q ∈ insertRanked p l) : q = p ∨ q ∈ l := by
  induction l with
  | nil =>
      simp only [insertRanked, List.mem_singleton] at h
      exact Or.inl h
  | cons x t ih =>
      simp only [insertRanked] at h
      by_cases hc : x.2 < p.2 ∨ (p.2 = x.2 ∧ p.1 ≤ x.1)
      · rw [if_pos hc] at h
        rcases List.mem_cons.mp h with h | h
        · exact Or.inl h
        · exact Or.inr h
      · rw [if_neg hc] at h
        rcases List.mem_cons.mp h with h | h
        · exact Or.inr (by simp [h])
        · rcases ih h with h2 | h2
          · exact Or.inl h2
          · exact Or.inr (by simp [h2])

theorem mem_sortRanked [LinearOrder α] (q : α × ℚ) (l : List (α × ℚ))
    (h : q ∈ sortRanked l) : q ∈ l := by
  induction l with
  | nil => simp [sortRanked] at h
  | cons x t ih =>
      unfold sortRanked at h
      rcases mem_insertRanked x q (sortRanked t) h with h | h
      · simp [h]
      · simp [ih h]

theorem mem_of_mem_resultList [LinearOrder α] (bm25 dense : Option (List α))
    (k : Nat) (p : α × ℚ) (h : p ∈ resultList (hybridSearch bm25 dense k)) :
    p.1 ∈ (candidateLists bm25 dense).flatten ∧
      p.2 = rrfScore (candidateLists bm25 dense) p.1 := by
  simp only [hybridSearch, resultList] at h
  have h1 : p ∈ sortRanked
      (((candidateLists bm25 dense).flatten.dedup).map
        (fun c => (c, rrfScore (candidateLists bm25 dense) c))) :=
    List.mem_of_mem_take h
  have h2 := mem_sortRanked _ _ h1
  rw [List.mem_map] at h2
  obtain ⟨c, hc, hpc⟩ := h2
  rw [List.mem_dedup] at hc
  subst hpc
  exact ⟨hc, rfl⟩

/-- C8: search returns a result (never an error) in both lexical-only mode
(no vectors) and vector-only mode (no lexical index); every returned chunk
comes from a list that was actually provided, and its score is the fusion
over exactly the provided lists — a missing list is simply absent. -/
theorem hybridSearch_total_modes (α : Type) [LinearOrder α]
    (lex dense : List α) (k : Nat) (p : α × ℚ) :
    (hybridSearch (some lex) (none : Option (List α)) k).isOk = true ∧
    (hybridSearch (none : Option (List α)) (some dense) k).isOk = true ∧
    (p ∈ resultList (hybridSearch (some lex) (none : Option (List α)) k) →
      p.1 ∈ lex ∧ p.2 = rrfScore [lex] p.1) ∧
    (p ∈ resultList (hybridSearch (none : Option (List α)) (some dense) k) →
      p.1 ∈ dense ∧ p.2 = rrfScore [dense] p.1) := by
  refine ⟨rfl, rfl, ?_, ?_⟩
  · intro h
    have := mem_of_mem_resultList (some lex) none k p h
    simpa [candidateLists] using this
  · intro h
    have := mem_of_mem_resultList none (some dense) k p h
    simpa [candidateLists] using this

/-- Witness for C8 in lexical-only mode on a one-chunk corpus. -/
theorem hybridSearch_total_modes_witness :
    ((5 : ℕ), rrfScore [[5]] (5 : ℕ)).1 ∈ [5] ∧
      ((5 : ℕ), rrfScore [[5]] (5 : ℕ)).2 = rrfScore [[5]] (5 : ℕ) :=
  (hybridSearch_total_modes ℕ [5] [7] 12 (5, rrfScore [[5]] 5)).2.2.1
    (by simp [hybridSearch, resultList, candidateLists, sortRanked, insertRanked])

/-! ### Sizer and PolicyDecider -/

/-- Data model of the sizing report (section 3 of the spec). -/
structure SizerReport where
  file_count : Nat
  loc_total : Nat
  bytes_total : Nat
  estimated_tokens : Nat
  chunk_estimate : Nat
  vector_count_estimate : Nat
deriving DecidableEq

/-- The two vector backends named by the policy rules. -/
inductive Backend where
  | in_memory
  | vertex_vector_search
deriving DecidableEq

/-- Data model of the vectorization decision (section 3 of the spec). -/
structure VectorizationDecision where
  use_embeddings : Bool
  backend : Backend
  reasons : List String
deriving DecidableEq

/-- Modelled from the spec: the deterministic policy rules of the
policy-decider document (src/unnamed/part_005): use_embeddings is true iff
any of the four size thresholds fires (inclusive), the remote backend is
selected iff any of its four conditions fires, and each fired rule
contributes one human-readable reason. -/
def PolicyDecider.decide (r : SizerReport) (expected_concurrent_sessions : Nat)
    (reuse_repo_across_sessions : Bool) : VectorizationDecision :=
  { use_embeddings :=
      if 80000 ≤ r.loc_total ∨ 1500 ≤ r.file_count ∨
          8000 ≤ r.vector_count_estimate ∨ 1500000 ≤ r.estimated_tokens
      then true else false
    backend :=
      if 50000 ≤ r.vector_count_estimate ∨ 1500000000 ≤ r.bytes_total ∨
          (3 ≤ expected_concurrent_sessions ∧ 20000 ≤ r.vector_count_estimate) ∨
          reuse_repo_across_sessions = true
      then Backend.vertex_vector_search else Backend.in_memory
    reasons :=
      (if 80000 ≤ r.loc_total then ["loc_total at or above 80000"] else []) ++
      (if 1500 ≤ r.file_count then ["file_count at or above 1500"] else []) ++
      (if 8000 ≤ r.vector_count_estimate then
        ["vector_count_estimate at or above 8000"] else []) ++
      (if 1500000 ≤ r.estimated_tokens then
        ["estimated_tokens_repo at or above 1500000"] else []) ++
      (if 50000 ≤ r.vector_count_estimate then
        ["vector_count_estimate at or above 50000"] else []) ++
      (if 1500000000 ≤ r.bytes_total then ["bytes_total at or above 1500000000"] else []) ++
      (if 3 ≤ expected_concurrent_sessions ∧ 20000 ≤ r.vector_count_estimate then
        ["concurrent sessions with vector_count_estimate at or above 20000"] else []) ++
      (if reuse_repo_across_sessions = true then ["reuse_repo_across_sessions"] else []) }

/-- C3: with every other threshold input below its threshold, the
loc_total rule of PolicyDecider.decide is inclusive at 80000 — one line
below the threshold yields use_embeddings = false and the exact threshold
yields use_embeddings = true. -/
theorem policy_decide_loc_boundary (r : SizerReport)
    (ecs : Nat) (reuse : Bool)
    (h1 : r.file_count < 1500) (h2 : r.vector_count_estimate < 8000)
    (h3 : r.estimated_tokens < 1500000) :
    (PolicyDecider.decide { r with loc_total := 79999 } ecs reuse).use_embeddings = false ∧
    (PolicyDecider.decide { r with loc_total := 80000 } ecs reuse).use_embeddings = true := by
  constructor
  · have hno : ¬(80000 ≤ 79999 ∨ 1500 ≤ r.file_count ∨
        8000 ≤ r.vector_count_estimate ∨ 1500000 ≤ r.estimated_tokens) := by omega
    simp only [PolicyDecider.decide, hno, if_false]
  · have hyes : 80000 ≤ 80000 ∨ 1500 ≤ r.file_count ∨
        8000 ≤ r.vector_count_estimate ∨ 1500000 ≤ r.estimated_tokens := by omega
    simp only [PolicyDecider.decide, hyes, if_true]

/-- Witness for C3 on the all-zero report. -/
theorem policy_decide_loc_boundary_witness :
    (PolicyDecider.decide
      { SizerReport.mk 0 0 0 0 0 0 with loc_total := 79999 } 1 false).use_embeddings = false ∧
    (PolicyDecider.decide
      { SizerReport.mk 0 0 0 0 0 0 with loc_total := 80000 } 1 false).use_embeddings = true :=
  policy_decide_loc_boundary (SizerReport.mk 0 0 0 0 0 0) 1 false
    (by decide) (by decide) (by decide)

/-- Per-file statistics consumed by the sizer. -/
structure FileStat where
  loc : Nat
  bytes : Nat
  chars : Nat
deriving DecidableEq

/-- Modelled from the spec: per-file chunk estimate
max 1 (ceil ((loc - overlap) / (window - overlap))) computed in natural
arithmetic the way an implementation would, with window w and overlap o. -/
def chunkEstimateFile (loc w o : Nat) : Nat :=
  max 1 ((loc - o + (w - o - 1)) / (w - o))

/-- Modelled from the spec: Sizer.measure — deterministic accumulation of
file statistics into a SizerReport, chunk estimate summed per file with the
default window 300 and overlap 50, estimated tokens as total chars / 4. -/
def Sizer.measure (files : List FileStat) : SizerReport :=
  { file_count := files.length
    loc_total := (files.map (fun f => f.loc)).sum
    bytes_total := (files.map (fun f => f.bytes)).sum
    estimated_tokens := (files.map (fun f => f.chars)).sum / 4
    chunk_estimate := (files.map (fun f => chunkEstimateFile f.loc 300 50)).sum
    vector_count_estimate := (files.map (fun f => chunkEstimateFile f.loc 300 50)).sum }

theorem ceil_div_250 (m : Nat) :
    ⌈(m : ℚ) / 250⌉ = (((m + 249) / 250 : ℕ) : ℤ) := by
  have h250 : (0 : ℚ) < 250 := by norm_num
  have h1 : 250 * ((m + 249) / 250) ≤ m + 249 := by omega
  have h2 : m ≤ 250 * ((m + 249) / 250) := by omega
  generalize hn : (m + 249) / 250 = n at h1 h2 ⊢
  have hc1 : (250 : ℚ) * n ≤ (m : ℚ) + 249 := by exact_mod_cast h1
  have hc2 : (m : ℚ) ≤ 250 * n := by exact_mod_cast h2
  rw [Int.ceil_eq_iff]
  constructor
  · rw [lt_div_iff₀ h250]
    push_cast
    linarith
  · rw [div_le_iff₀ h250]
    push_cast
    linarith

theorem chunkEstimateFile_eq_ceil (loc : Nat) :
    chunkEstimateFile loc 300 50 =
      max 1 (Int.toNat ⌈(((loc : ℚ) - 50) / 250)⌉) := by
  by_cases h : loc ≤ 50
  · have hl : loc - 50 = 0 := by omega
    have hx : ((loc : ℚ) - 50) / 250 ≤ 0 := by
      apply div_nonpos_of_nonpos_of_nonneg
      · have : (loc : ℚ) ≤ 50 := by exact_mod_cast h
        linarith
      · norm_num
    have hceil : ⌈((loc : ℚ) - 50) / 250⌉ ≤ 0 := Int.ceil_le.mpr (by simpa using hx)
    have htn : Int.toNat ⌈((loc : ℚ) - 50) / 250⌉ = 0 := Int.toNat_of_nonpos hceil
    simp [chunkEstimateFile, hl, htn]
  · push_neg at h
    have hcast : (loc : ℚ) - 50 = ((loc - 50 : ℕ) : ℚ) := by
      have h50 : (50 : ℕ) ≤ loc := by omega
      push_cast [h50]
      ring
    rw [hcast, ceil_div_250, Int.toNat_natCast]
    simp [chunkEstimateFile]

/-- C9: the sizer's chunk estimate is the sum over files of
max 1 (ceil ((loc - 50) / 250)) (exact rational ceiling, window 300 and
overlap 50); a zero-length file contributes exactly 1, and any non-empty
file set has chunk_estimate at least 1. -/
theorem sizer_chunk_estimate_spec (files : List FileStat) :
    (Sizer.measure files).chunk_estimate =
      (files.map (fun f => max 1 (Int.toNat ⌈(((f.loc : ℚ) - 50) / 250)⌉))).sum ∧
    chunkEstimateFile 0 300 50 = 1 ∧
    (files ≠ [] → 1 ≤ (Sizer.measure files).chunk_estimate) := by
  refine ⟨?_, by decide, ?_⟩
  · have : (fun f : FileStat => chunkEstimateFile f.loc 300 50) =
        (fun f : FileStat => max 1 (Int.toNat ⌈(((f.loc : ℚ) - 50) / 250)⌉)) := by
      funext f
      exact chunkEstimateFile_eq_ceil f.loc
    simp [Sizer.measure, this]
  · intro hne
    cases files with
    | nil => exact absurd rfl hne
    | cons f fs =>
        have h1 : 1 ≤ chunkEstimateFile f.loc 300 50 := le_max_left _ _
        have : chunkEstimateFile f.loc 300 50 ≤ (Sizer.measure (f :: fs)).chunk_estimate := by
          simp [Sizer.measure]
        omega

/-- Witness for C9 on a file set holding a single zero-byte file. -/
theorem sizer_chunk_estimate_spec_witness :
    1 ≤ (Sizer.measure [FileStat.mk 0 0 0]).chunk_estimate :=
  (sizer_chunk_estimate_spec [FileStat.mk 0 0 0]).2.2 (by decide)

/-! ### SessionIndexRegistry -/

/-- One registry entry: a session id, the retriever bound to it (identified
by a number, since the retriever itself is owned elsewhere), and the
last-access time used by the TTL sweep. -/
structure RegEntry where
  sid : String
  retr : Nat
  last_access : Nat
deriving DecidableEq

/-- The registry state: the association list backing the per-session map of
retrievers (src/agents/indexer.py declares it as a Dict keyed by session
id; src/unnamed/part_007). -/
abbrev Registry := List RegEntry

/-- Modelled from the spec: put binds a session id to a retriever, a put on
an already-registered id replacing the prior binding. -/
def SessionIndex.put (reg : Registry) (sid : String) (r : Nat) (now : Nat) : Registry :=
  RegEntry.mk sid r now :: List.filter (fun e => e.sid ≠ sid) reg

/-- Modelled from the spec: get returns the retriever bound to the session
id, or none when the id is absent or its entry has outlived the TTL. -/
def SessionIndex.get (reg : Registry) (sid : String) (now ttl : Nat) : Option Nat :=
  match List.find? (fun e => e.sid = sid) reg with
  | none => none
  | some e => if ttl < now - e.last_access then none else some e.retr

/-- Modelled from the spec: drop removes the binding of a session id. -/
def SessionIndex.drop (reg : Registry) (sid : String) : Registry :=
  List.filter (fun e => e.sid ≠ sid) reg

/-- Modelled from the spec: the TTL sweep removes every entry whose
last-access time exceeds the TTL. -/
def SessionIndex.sweep (reg : Registry) (now ttl : Nat) : Registry :=
  List.filter (fun e => now - e.last_access ≤ ttl) reg

/-- The operations a client can interleave against the registry. -/
inductive RegOp where
  | put (sid : String) (r : Nat) (now : Nat)
  | get (sid : String) (now ttl : Nat)
  | drop (sid : String)
  | sweep (now ttl : Nat)

/-- State effect of one registry operation (get reads without writing). -/
def applyOp (reg : Registry) : RegOp → Registry
  | RegOp.put sid r now => SessionIndex.put reg sid r now
  | RegOp.get _ _ _ => reg
  | RegOp.drop sid => SessionIndex.drop reg sid
  | RegOp.sweep now ttl => SessionIndex.sweep reg now ttl

/-- State after an interleaving of registry operations. -/
def runOps (reg : Registry) (ops : List RegOp) : Registry :=
  List.foldl applyOp reg ops

/-- At most one entry per session id. -/
def UniqueSids (reg : Registry) : Prop :=
  (List.map (fun e => e.sid) reg).Nodup

theorem uniqueSids_filter (reg : Registry) (p : RegEntry → Bool)
    (h : UniqueSids reg) : UniqueSids (List.filter p reg) := by
  unfold UniqueSids at *
  have hsub : List.Sublist (List.filter p reg) reg := List.filter_sublist reg
  exact List.Nodup.sublist (List.Sublist.map (fun e => e.sid) hsub) h

theorem uniqueSids_put (reg : Registry) (sid : String) (r now : Nat)
    (h : UniqueSids reg) : UniqueSids (SessionIndex.put reg sid r now) := by
  unfold UniqueSids SessionIndex.put
  rw [List.map_cons]
  refine List.nodup_cons.mpr ⟨?_, uniqueSids_filter reg _ h⟩
  intro hmem
  rw [List.mem_map] at hmem
  obtain ⟨e, he, hesid⟩ := hmem
  rw [List.mem_filter] at he
  have : e.sid ≠ sid := by simpa using he.2
  exact this hesid

theorem uniqueSids_applyOp (reg : Registry) (op : RegOp)
    (h : UniqueSids reg) : UniqueSids (applyOp reg op) := by
  cases op with
  | put sid r now => exact uniqueSids_put reg sid r now h
  | get sid now ttl => exact h
  | drop sid => exact uniqueSids_filter reg _ h
  | sweep now ttl => exact uniqueSids_filter reg _ h

theorem uniqueSids_runOps (ops : List RegOp) :
    ∀ reg, UniqueSids reg → UniqueSids (runOps reg ops) := by
  induction ops with
  | nil => intro reg h; exact h
  | cons op ops ih =>
      intro reg h
      exact ih (applyOp reg op) (uniqueSids_applyOp reg op h)

/-- C5: the registry keeps at most one retriever per session id across every
interleaving of put, get, drop and TTL sweep; a put on a registered id
replaces the prior retriever (a later get sees exactly the new one, or
nothing once the TTL has elapsed); and a get on an absent id or on an entry
whose last access has outlived the TTL returns none rather than a
retriever. -/
theorem session_registry_spec :
    (∀ (ops : List RegOp) (reg : Registry),
      UniqueSids reg → UniqueSids (runOps reg ops)) ∧
    (∀ (reg : Registry) (sid : String) (r now now' ttl : Nat),
      SessionIndex.get (SessionIndex.put reg sid r now) sid now' ttl =
        if ttl < now' - now then none else some r) ∧
    (∀ (reg : Registry) (sid : String) (now ttl : Nat),
      (∀ e ∈ reg, e.sid ≠ sid) → SessionIndex.get reg sid now ttl = none) ∧
    (∀ (reg : Registry) (sid : String) (now ttl : Nat) (e : RegEntry),
      List.find? (fun x => x.sid = sid) reg = some e →
      ttl < now - e.last_access → SessionIndex.get reg sid now ttl = none) := by
  refine ⟨fun ops reg h => uniqueSids_runOps ops reg h, ?_, ?_, ?_⟩
  · intro reg sid r now now' ttl
    unfold SessionIndex.get SessionIndex.put
    simp
  · intro reg sid now ttl habs
    unfold SessionIndex.get
    have : List.find? (fun e => e.sid = sid) reg = none := by
      rw [List.find?_eq_none]
      intro e he
      simpa using habs e he
    rw [this]
  · intro reg sid now ttl e hfind hexp
    unfold SessionIndex.get
    rw [hfind]
    simp [hexp]

/-- Witness for C5: a put over an existing binding of the same session id is
replaced, and the replacement is returned by an in-TTL get. -/
theorem session_registry_spec_witness :
    SessionIndex.get
      (SessionIndex.put [RegEntry.mk "s" 1 0] "s" 2 5) "s" 10 60 =
      if (60 : Nat) < 10 - 5 then none else some 2 :=
  session_registry_spec.2.1 [RegEntry.mk "s" 1 0] "s" 2 5 10 60

/-! ### Embedder contract -/

/-- Modelled from the spec: truncation of one input to a fixed character
budget before it is sent to the embedding backend. -/
def truncateInput (cap : Nat) (s : String) : String :=
  String.take s cap

/-- Modelled from the spec: split the ordered inputs into consecutive
batches of at most b texts each (batch size bounded, e.g. 4 to 8). -/
def toBatches : Nat → List α → List (List α)
  | _, [] => []
  | 0, l => [l]
  | b + 1, x :: t => (x :: List.take b t) :: toBatches (b + 1) (List.drop b t)
termination_by _ l => l.length
decreasing_by
  simp only [List.length_cons, List.length_drop]
  omega

/-- Modelled from the spec: embed_texts — truncate each input, embed batch
by batch with the backend function f, and concatenate the per-batch results
in order (src/tools/embeddings.py is absent; its deliverable description is
in src/unnamed/part_004). -/
def embed_texts (f : String → β) (cap b : Nat) (texts : List String) : List β :=
  (List.map (fun batch => List.map (fun t => f (truncateInput cap t)) batch)
    (toBatches b texts)).flatten

theorem toBatches_flatten (b : Nat) (l : List α) :
    (toBatches b l).flatten = l := by
  cases b with
  | zero =>
      cases l with
      | nil => simp [toBatches]
      | cons x t => simp [toBatches]
  | succ b =>
      have H : ∀ (n : Nat) (l : List α), l.length ≤ n →
          (toBatches (b + 1) l).flatten = l := by
        intro n
        induction n with
        | zero =>
            intro l hl
            have : l = [] := List.eq_nil_of_length_eq_zero (by omega)
            subst this
            simp [toBatches]
        | succ n ih =>
            intro l hl
            cases l with
            | nil => simp [toBatches]
            | cons x t =>
                rw [toBatches]
                simp only [List.flatten_cons]
                rw [ih (List.drop b t) (by simp [List.length_drop]; simp at hl; omega)]
                rw [List.cons_append, List.take_append_drop]
      exact H l.length l (le_refl _)

/-- C6: the embedding operation returns exactly one vector per input text,
in input order — position i of the output is the embedding of (the
truncation of) position i of the input — for every batch size. -/
theorem embed_texts_order_spec (β : Type) (f : String → β) (cap b : Nat)
    (texts : List String) :
    (embed_texts f cap b texts).length = texts.length ∧
    embed_texts f cap b texts =
      List.map (fun t => f (truncateInput cap t)) texts := by
  have hmain : embed_texts f cap b texts =
      List.map (fun t => f (truncateInput cap t)) texts := by
    unfold embed_texts
    rw [← List.map_flatten, toBatches_flatten]
  exact ⟨by rw [hmain, List.length_map], hmain⟩

/-! ### Embedder error handling: NotConfiguredError and transient retry -/

/-- What one attempt against the embedding backend can produce. -/
inductive EmbedOutcome where
  | success (v : List ℚ)
  | rateLimited
  | serverError
  | notConfigured
deriving DecidableEq

/-- The errors the embed call surfaces to the index step. -/
inductive EmbedError where
  | notConfiguredError
  | transientExhausted
deriving DecidableEq

/-- Result of an embed call together with the number of backend attempts
actually made. -/
structure RetryTrace where
  result : Except EmbedError (List ℚ)
  attempts : Nat

/-- Modelled from the spec: the retry loop — a transient outcome (rate
limit or server error) consumes one attempt and retries, a success returns,
and a not-configured backend is surfaced immediately without any retry;
backoff delays are timing and are abstracted away.  backend gives the
outcome of attempt number i. -/
def retryLoop (backend : Nat → EmbedOutcome) : Nat → Nat → RetryTrace
  | 0, made => RetryTrace.mk (Except.error EmbedError.transientExhausted) made
  | remaining + 1, made =>
      match backend made with
      | EmbedOutcome.success v => RetryTrace.mk (Except.ok v) (made + 1)
      | EmbedOutcome.notConfigured =>
          RetryTrace.mk (Except.error EmbedError.notConfiguredError) (made + 1)
      | EmbedOutcome.rateLimited => retryLoop backend remaining (made + 1)
      | EmbedOutcome.serverError => retryLoop backend remaining (made + 1)

/-- Modelled from the spec: one embedding call retries transient failures
with backoff up to 5 tries in total. -/
def embedCall (backend : Nat → EmbedOutcome) : RetryTrace :=
  retryLoop backend 5 0

theorem retryLoop_attempts_le (backend : Nat → EmbedOutcome) :
    ∀ remaining made, (retryLoop backend remaining made).attempts ≤ made + remaining := by
  intro remaining
  induction remaining with
  | zero => intro made; simp [retryLoop]
  | succ remaining ih =>
      intro made
      unfold retryLoop
      cases backend made with
      | success v => simp
      | notConfigured => simp
      | rateLimited =>
          have := ih (made + 1)
          simpa using by omega
      | serverError =>
          have := ih (made + 1)
          simpa using by omega

/-- C7: a backend that is not configured fails the call immediately with the
distinct not-configured error after exactly one attempt — it is never
retried — while a backend that keeps returning transient rate-limit or
server errors is retried up to the fixed cap of 5 attempts and then
escalated; no call ever makes more than 5 attempts. -/
theorem embed_error_spec (backend : Nat → EmbedOutcome) :
    (backend 0 = EmbedOutcome.notConfigured →
      embedCall backend =
        RetryTrace.mk (Except.error EmbedError.notConfiguredError) 1) ∧
    ((∀ i, i < 5 → backend i = EmbedOutcome.rateLimited ∨
        backend i = EmbedOutcome.serverError) →
      embedCall backend =
        RetryTrace.mk (Except.error EmbedError.transientExhausted) 5) ∧
    (embedCall backend).attempts ≤ 5 := by
  refine ⟨?_, ?_, ?_⟩
  · intro h0
    simp [embedCall, retryLoop, h0]
  · intro htrans
    have h0 := htrans 0 (by omega)
    have h1 := htrans 1 (by omega)
    have h2 := htrans 2 (by omega)
    have h3 := htrans 3 (by omega)
    have h4 := htrans 4 (by omega)
    unfold embedCall retryLoop
    rcases h0 with h0 | h0 <;> rw [h0] <;>
      (unfold retryLoop; rcases h1 with h1 | h1 <;> rw [h1] <;>
        (unfold retryLoop; rcases h2 with h2 | h2 <;> rw [h2] <;>
          (unfold retryLoop; rcases h3 with h3 | h3 <;> rw [h3] <;>
            (unfold retryLoop; rcases h4 with h4 | h4 <;> rw [h4] <;>
              simp [retryLoop]))))
  · simpa using retryLoop_attempts_le backend 5 0

/-- Witness for C7: an always-unconfigured backend fails once, immediately. -/
theorem embed_error_spec_witness :
    embedCall (fun _ => EmbedOutcome.notConfigured) =
      RetryTrace.mk (Except.error EmbedError.notConfiguredError) 1 :=
  (embed_error_spec (fun _ => EmbedOutcome.notConfigured)).1 rfl

/-! ### Ingestor and Indexer -/

/-- Data model of a chunk (section 3 of the spec); the content hash is
abstracted as the chunk text itself since the hash function is injective on
the normalized text for the purposes of the claims below. -/
structure Chunk where
  id : String
  repo : String
  commit : String
  path : String
  lang : String
  start_line : Nat
  end_line : Nat
  text : String
  symbols : List String
  imports : List String
  content_hash : String
deriving DecidableEq

/-- One enumerated source file, carrying the text (as lines) and the
symbol/import lists the per-language regex heuristics extracted from it;
the heuristics themselves are language-profile data and are abstracted as
their output. -/
structure SourceFile where
  path : String
  lang : String
  lines : List String
  symbols : List String
  imports : List String
deriving DecidableEq

/-- Modelled from the spec: the chunks emitted for one ingested file — one
Chunk per window of split_code_windows, id derived from repo, commit, path
and the line range, symbols and imports truncated to the first 50 entries
(src/agents/repo_ingestor.py is absent; its deliverable description is in
src/unnamed/part_008). -/
def ingest_file (repo commit : String) (f : SourceFile) : List Chunk :=
  List.map
    (fun se =>
      let txt := String.intercalate "\n"
        (List.take (se.2 + 1 - se.1) (List.drop (se.1 - 1) f.lines))
      { id := repo ++ ":" ++ commit ++ ":" ++ f.path ++ "#" ++
          toString se.1 ++ "-" ++ toString se.2
        repo := repo
        commit := commit
        path := f.path
        lang := f.lang
        start_line := se.1
        end_line := se.2
        text := txt
        symbols := List.take 50 f.symbols
        imports := List.take 50 f.imports
        content_hash := txt })
    (split_code_windows f.lines.length 300 50)

/-- Modelled from the spec: ingest_repo — emit the chunks of every
enumerated file. -/
def ingest_repo (repo commit : String) (files : List SourceFile) : List Chunk :=
  List.flatten (List.map (ingest_file repo commit) files)

/-- C10: every chunk emitted by ingest_repo carries at most 50 symbols and
at most 50 imports, however many the extraction found in the file. -/
theorem ingest_repo_truncates_metadata (repo commit : String)
    (files : List SourceFile) (c : Chunk) (hc : c ∈ ingest_repo repo commit files) :
    c.symbols.length ≤ 50 ∧ c.imports.length ≤ 50 := by
  unfold ingest_repo at hc
  rw [List.mem_flatten] at hc
  obtain ⟨l, hl, hcl⟩ := hc
  rw [List.mem_map] at hl
  obtain ⟨f, hf, hfl⟩ := hl
  subst hfl
  unfold ingest_file at hcl
  rw [List.mem_map] at hcl
  obtain ⟨se, hse, hch⟩ := hcl
  subst hch
  constructor
  · simp
  · simp

/-- A concrete one-line file whose extraction found 51 symbols. -/
def manySymbolsFile : SourceFile :=
  SourceFile.mk "p" "py" ["x"] (List.replicate 51 "s") []

/-- Witness for C10 on a file with 51 extracted symbols: the emitted chunk
keeps only 50 of them. -/
theorem ingest_repo_truncates_metadata_witness :
    (Chunk.mk "r:k:p#1-1" "r" "k" "p" "py" 1 1 "x" (List.replicate 50 "s") [] "x").symbols.length ≤ 50 ∧
    (Chunk.mk "r:k:p#1-1" "r" "k" "p" "py" 1 1 "x" (List.replicate 50 "s") [] "x").imports.length ≤ 50 :=
  ingest_repo_truncates_metadata "r" "k" [manySymbolsFile] _ (by decide)

/-- Result record of the index step: which texts were sent to the embedding
backend, how many vectors were produced, and the backend label reported. -/
structure IndexResult where
  session_id : String
  vector_count : Nat
  backend : Backend
  embedded_texts : List String
deriving DecidableEq

/-- Modelled from the spec: index_repo as its deliverable description
(src/unnamed/part_007) defines it — it ALWAYS computes in-memory embeddings
of all chunk texts, the policy decision only supplying the reported backend
label; embedded_texts records exactly the texts sent to the embedding
backend. -/
def index_repo (session_id : String) (chunks : List Chunk)
    (decision : VectorizationDecision) : IndexResult :=
  let texts := List.map (fun c => c.text) chunks
  { session_id := session_id
    vector_count := texts.length
    backend := decision.backend
    embedded_texts := texts }

/-- A concrete chunk used to exhibit the behaviour of index_repo. -/
def sampleChunk : Chunk :=
  Chunk.mk "r:k:p#1-1" "r" "k" "p" "py" 1 1 "x" [] [] "x"

/-- Counterexample to C4: with use_embeddings = false the index step still
embeds the session's chunk texts — the embedding call list is non-empty. -/
theorem index_repo_embeds_despite_policy :
    (index_repo "s" [sampleChunk]
      (VectorizationDecision.mk false Backend.in_memory [])).embedded_texts ≠ [] := by
  decide

/-- C4 as amended: index_repo always batch-embeds exactly the session's
chunk texts, whatever the policy decision says; the decision only
determines the backend label of the result. -/
theorem index_repo_always_embeds (session_id : String) (chunks : List Chunk)
    (decision : VectorizationDecision) :
    (index_repo session_id chunks decision).embedded_texts =
      List.map (fun c => c.text) chunks ∧
    (index_repo session_id chunks decision).backend = decision.backend ∧
    (index_repo session_id chunks decision).vector_count = chunks.length := by
  refine ⟨rfl, rfl, ?_⟩
  simp [index_repo]

end ADAM
